import Mathlib

/-!
Shallow embedding of the andromeda black-hole ray tracer.

Real-number quantities of the Python source (floats) are modelled as
rationals; the external `numpy.cos` function is passed explicitly as a
parameter `cosf : ℚ → ℚ`, mirroring its role as an opaque numerical
routine.  The external ODE solver (`scipy.integrate.odeint`) is opaque:
theorems quantify over the trajectory it returns.
-/

/-- The 8-component phase-space state `[t, r, theta, phi, k_t, k_r, k_theta, k_phi]`
used throughout `common/common.py`. -/
structure PhaseState where
  t : ℚ
  r : ℚ
  th : ℚ
  ph : ℚ
  k_t : ℚ
  k_r : ℚ
  k_th : ℚ
  k_ph : ℚ
  deriving DecidableEq, Repr

/-- The all-zero phase state `[0, 0, 0, 0, 0, 0, 0, 0]`. -/
def zeroState : PhaseState := ⟨0, 0, 0, 0, 0, 0, 0, 0⟩

/-- A 4-component coordinate or momentum vector (Python lists `x`, `k`). -/
structure Vec4 where
  c0 : ℚ
  c1 : ℚ
  c2 : ℚ
  c3 : ℚ
  deriving DecidableEq, Repr

/-- The five metric scalars `(g_tt, g_rr, g_thth, g_phph, g_tph)` returned by
`blackhole.metric(x)`. -/
structure Metric5 where
  g_tt : ℚ
  g_rr : ℚ
  g_thth : ℚ
  g_phph : ℚ
  g_tph : ℚ
  deriving DecidableEq, Repr

/-- Function `initCond` from `common/common.py` (lines 14-41): lowers the contravariant
momentum `k` at position `x` with the metric of the black hole and returns the
8-component initial phase state. -/
def initCond (x k : Vec4) (metric : Vec4 → Metric5) : PhaseState :=
  let g := metric x
  { t := x.c0
    r := x.c1
    th := x.c2
    ph := x.c3
    k_t := g.g_tt * k.c0 + g.g_tph * k.c3
    k_r := g.g_rr * k.c1
    k_th := g.g_thth * k.c2
    k_ph := g.g_phph * k.c3 + g.g_tph * k.c0 }

/-- The `Photon` object right after `Photon.__init__` (lines 46-65 of
`common/common.py`): pixel indices, initial data and the terminal state `fP`
are all set to Python `None`, modelled as `Option.none`. -/
structure Photon where
  alpha : ℚ
  beta : ℚ
  freq : ℚ
  i : Option ℕ
  j : Option ℕ
  xin : Option Vec4
  kin : Option Vec4
  fP : Option PhaseState
  deriving DecidableEq, Repr

/-- Constructor `Photon.__init__(alpha, beta, freq=1.)`: stores the image-plane
coordinates and sets every other attribute, `fP` included, to `None`. -/
def Photon.mk0 (alpha beta freq : ℚ) : Photon :=
  { alpha := alpha, beta := beta, freq := freq
    i := none, j := none, xin := none, kin := none, fP := none }

/-- First index at which a boolean sequence is `true`, if any. -/
def firstTrue : List Bool → Option ℕ
  | [] => none
  | b :: rest => if b then some 0 else (firstTrue rest).map (· + 1)

/-- Behaviour of `numpy.argmax` on a boolean array: the first `true` index when one
exists, and index `0` (position of the first element) for an all-`false`
array. -/
def np_argmax (l : List Bool) : ℕ := (firstTrue l).getD 0

/-- The horizon condition array `sol[:,1] < blackhole.EH + 1e-5` of
`geo_integ` (line 86 of `common/common.py`). -/
def ehConditionList (sol : List PhaseState) (EH : ℚ) : List Bool :=
  sol.map fun s => decide (s.r < EH + 1 / 100000)

/-- The disk-crossing condition array
`(abs(sol[:,1]*cos(sol[:,2])) < 1e-1) & (sol[:,1] > in_edge) & (sol[:,1] < out_edge)`
of `geo_integ` (lines 88-89 of `common/common.py`). -/
def edgeConditionList (cosf : ℚ → ℚ) (sol : List PhaseState)
    (in_edge out_edge : ℚ) : List Bool :=
  sol.map fun s =>
    decide (|s.r * cosf s.th| < 1 / 10 ∧ s.r > in_edge ∧ s.r < out_edge)

/-- The intersection-resolution tail of `geo_integ` (lines 83-99 of
`common/common.py`): `p.fP` is set to zeros, then to `sol[indx_edge]` when the
disk condition holds at its argmax index, else left/reset to zeros when the
horizon condition holds at its argmax index, else left at zeros. -/
def geo_integ_resolve (cosf : ℚ → ℚ) (sol : List PhaseState)
    (EH in_edge out_edge : ℚ) : PhaseState :=
  let eh_condition := ehConditionList sol EH
  let edge_condition := edgeConditionList cosf sol in_edge out_edge
  let indx_eh := np_argmax eh_condition
  let indx_edge := np_argmax edge_condition
  if edge_condition.getD indx_edge false then sol.getD indx_edge zeroState
  else if eh_condition.getD indx_eh false then zeroState
  else zeroState

/-- Function `geo_integ` at the photon level: stores the resolved terminal state in
`p.fP` (the integration itself, `odeint`, is opaque; `sol` is its output). -/
def geo_integ_photon (cosf : ℚ → ℚ) (p : Photon) (sol : List PhaseState)
    (EH in_edge out_edge : ℚ) : Photon :=
  { p with fP := some (geo_integ_resolve cosf sol EH in_edge out_edge) }

/-- The accretion `structure` object of
`accretion_structures/simple_disk.py`. -/
structure AccStructure where
  in_edge : ℚ
  out_edge : ℚ
  deriving DecidableEq, Repr

/-- Constructor `structure.__init__(blackhole, R_min, R_max, corotating=True)` (lines 9-12
of `simple_disk.py`): stores the two radii with no validation whatsoever. -/
def structure_mk (R_min R_max : ℚ) : AccStructure :=
  { in_edge := R_min, out_edge := R_max }

/-- Method `structure.energy_flux(r)` (lines 14-20 of `simple_disk.py`): the linear
profile `m * (r - out_edge)` with `m = (1-0)/(in_edge - out_edge)`, returned
only for `in_edge < r < out_edge`, else `0`. -/
def energy_flux (a : AccStructure) (r : ℚ) : ℚ :=
  let m := (1 - 0) / (a.in_edge - a.out_edge)
  let intensity := m * (r - a.out_edge)
  if r > a.in_edge ∧ r < a.out_edge then intensity else 0

/-- Function `distribute` of `parallel.py` (lines 11-26), linear-index part: the
half-open range `[start_idx, end_idx)` of photon indices assigned to `rank`
out of `size` workers over `total` photons. -/
def distribute_idx (rank size total : ℕ) : ℕ × ℕ :=
  let photons_per_rank := total / size
  let rest := total % size
  if rank < rest then
    (rank * (photons_per_rank + 1),
     rank * (photons_per_rank + 1) + photons_per_rank + 1)
  else
    (rank * photons_per_rank + rest,
     rank * photons_per_rank + rest + photons_per_rank)

/-- Function `distribute` of `parallel.py` (lines 11-26): converts the linear range to
`(start_alpha, start_beta, end_alpha, end_beta)` via `divmod` by
`len(detector.betaRange)` (= `ylen`). -/
def distribute (rank size xpix ypix ylen : ℕ) : ℕ × ℕ × ℕ × ℕ :=
  let se := distribute_idx rank size (xpix * ypix)
  (se.1 / ylen, se.1 % ylen, se.2 / ylen, se.2 % ylen)

/-- The pixel pairs `(i, j)` enumerated by the double loop of
`Image.create_photons` (lines 123-143 of `common/common.py`):
`i` runs over `range(start_alpha, end_alpha + 1)`; for each row,
`j` runs from `start_beta` (only on the first row) or `0`, up to
`end_beta` (on the last row) or `len(betaRange)` (= `ylen`). -/
def photon_pixels (start_alpha start_beta end_alpha end_beta ylen : ℕ) :
    List (ℕ × ℕ) :=
  (List.range (end_alpha + 1 - start_alpha)).flatMap fun di =>
    let i := start_alpha + di
    let beta_start := if i = start_alpha then start_beta else 0
    let beta_end := if i = end_alpha then end_beta else ylen
    (List.range (beta_end - beta_start)).map fun dj => (i, beta_start + dj)

/-- The buffer fill of `Image.create_image` (lines 146-157 of
`common/common.py`): starting from an all-zero full-grid buffer, each listed
pixel is assigned its flux value `fluxAt (i, j)`.  (`fluxAt` abstracts the
per-photon computation `acc_structure.energy_flux(p.fP[1])`, which is a
deterministic function of the pixel once the black hole, detector and disk
are fixed; see `pixel_flux`.) -/
def create_image (pixels : List (ℕ × ℕ)) (fluxAt : ℕ × ℕ → ℚ) :
    ℕ × ℕ → ℚ :=
  pixels.foldl (fun img px => fun q => if q = px then fluxAt px else img q)
    (fun _ => 0)

/-- The per-pixel value computed in the loop body of `Image.create_image`:
resolve the trajectory of the pixel's photon and sample `energy_flux` at the
terminal radial coordinate `p.fP[1]`.  The trajectory map `traj` stands for
the opaque `odeint` integration of the pixel's initial conditions. -/
def pixel_flux (cosf : ℚ → ℚ) (traj : ℕ × ℕ → List PhaseState)
    (EH : ℚ) (a : AccStructure) (px : ℕ × ℕ) : ℚ :=
  energy_flux a (geo_integ_resolve cosf (traj px) EH a.in_edge a.out_edge).r

/-- The pixels processed by worker `rank` of `size`: `create_photons` driven
by the bounds that `distribute` returns for that rank (grid `xpix × ypix`,
with `len(betaRange) = ypix`). -/
def worker_pixels (rank size xpix ypix : ℕ) : List (ℕ × ℕ) :=
  let b := distribute rank size xpix ypix ypix
  photon_pixels b.1 b.2.1 b.2.2.1 b.2.2.2 ypix

/-- The partial image buffer produced by worker `rank` of `size`. -/
def worker_buffer (fluxAt : ℕ × ℕ → ℚ) (rank size xpix ypix : ℕ) :
    ℕ × ℕ → ℚ :=
  create_image (worker_pixels rank size xpix ypix) fluxAt

/-- The reduction in `gather_and_process_data` (lines 28-38 of
`parallel.py`): the root sums the gathered buffers elementwise
(`sum(gathered_image_data, axis=0)`). -/
def gather_sum (buffers : List (ℕ × ℕ → ℚ)) : ℕ × ℕ → ℚ :=
  fun px => (buffers.map fun b => b px).sum

/-! ### Helper lemmas about the boolean scans and the buffer fill -/

lemma firstTrue_eq_none_iff {l : List Bool} :
    firstTrue l = none ↔ ∀ b ∈ l, b = false := by
  induction l with
  | nil => simp [firstTrue]
  | cons b t ih =>
      cases b
      · simp [firstTrue, ih]
      · simp [firstTrue]

lemma firstTrue_eq_none_of_all_false {l : List Bool}
    (h : ∀ b ∈ l, b = false) : firstTrue l = none :=
  firstTrue_eq_none_iff.mpr h

lemma np_argmax_eq_zero_of_all_false {l : List Bool}
    (h : ∀ b ∈ l, b = false) : np_argmax l = 0 := by
  simp [np_argmax, firstTrue_eq_none_of_all_false h]

lemma getD_false_of_all_false {l : List Bool}
    (h : ∀ b ∈ l, b = false) (n : ℕ) : l.getD n false = false := by
  induction l generalizing n with
  | nil => simp
  | cons b t ih =>
      cases n with
      | zero => simpa using h b (List.mem_cons_self b t)
      | succ m =>
          simpa using ih (fun x hx => h x (List.mem_cons_of_mem b hx)) m

lemma getD_np_argmax_of_mem {l : List Bool} (h : true ∈ l) :
    l.getD (np_argmax l) false = true := by
  induction l with
  | nil => simp at h
  | cons b t ih =>
      by_cases hb : b = true
      · subst hb
        simp [np_argmax, firstTrue]
      · have hbf : b = false := by
          cases b
          · rfl
          · exact absurd rfl hb
        subst hbf
        have ht : true ∈ t := by
          rcases List.mem_cons.mp h with h0 | h0
          · exact absurd h0.symm (by simp)
          · exact h0
        rcases ho : firstTrue t with _ | i
        · have := firstTrue_eq_none_iff.mp ho true ht
          simp at this
        · have harg : np_argmax (false :: t) = i + 1 := by
            simp [np_argmax, firstTrue, ho]
          rw [harg]
          have hnp : np_argmax t = i := by simp [np_argmax, ho]
          simpa [hnp] using ih ht

lemma foldl_assign_value (pixels : List (ℕ × ℕ)) (fluxAt : ℕ × ℕ → ℚ)
    (init : ℕ × ℕ → ℚ) (q : ℕ × ℕ) :
    pixels.foldl (fun img px => fun p => if p = px then fluxAt px else img p)
        init q
      = if q ∈ pixels then fluxAt q else init q := by
  induction pixels generalizing init with
  | nil => simp
  | cons p t ih =>
      simp only [List.foldl_cons, ih, List.mem_cons]
      by_cases hq : q ∈ t
      · simp [hq]
      · by_cases hqp : q = p
        · subst hqp
          simp [hq]
        · simp [hq, hqp]

lemma create_image_value (pixels : List (ℕ × ℕ)) (fluxAt : ℕ × ℕ → ℚ)
    (q : ℕ × ℕ) :
    create_image pixels fluxAt q = if q ∈ pixels then fluxAt q else 0 :=
  foldl_assign_value pixels fluxAt (fun _ => 0) q

/-! ### Claims about the Intersection Resolver (`geo_integ`) -/

/-- C1: if the disk-crossing condition holds at its first-true candidate
index, and the horizon condition holds at its own candidate index, the
resolver of `geo_integ` sets the terminal state to the trajectory sample at
the disk-crossing candidate index (never the all-zero horizon outcome),
whatever the relative order of the two candidate indices. -/
theorem geo_integ_disk_priority (cosf : ℚ → ℚ) (sol : List PhaseState)
    (EH in_edge out_edge : ℚ)
    (hedge : (edgeConditionList cosf sol in_edge out_edge).getD
      (np_argmax (edgeConditionList cosf sol in_edge out_edge)) false = true)
    (heh : (ehConditionList sol EH).getD
      (np_argmax (ehConditionList sol EH)) false = true) :
    geo_integ_resolve cosf sol EH in_edge out_edge =
      sol.getD (np_argmax (edgeConditionList cosf sol in_edge out_edge))
        zeroState := by
  unfold geo_integ_resolve
  simp only [hedge, if_true]

/-- Witness for C1: a two-sample trajectory whose first sample triggers the
horizon condition (candidate index 0) and whose second sample triggers the
disk condition (candidate index 1); the resolved state is the disk sample. -/
theorem geo_integ_disk_priority_witness :
    (edgeConditionList (fun _ => 0)
        [⟨0, 1, 0, 0, 0, 0, 0, 0⟩, ⟨0, 5, 0, 0, 0, 0, 0, 0⟩] 3 10).getD
      (np_argmax (edgeConditionList (fun _ => 0)
        [⟨0, 1, 0, 0, 0, 0, 0, 0⟩, ⟨0, 5, 0, 0, 0, 0, 0, 0⟩] 3 10)) false
        = true ∧
    (ehConditionList
        [⟨0, 1, 0, 0, 0, 0, 0, 0⟩, ⟨0, 5, 0, 0, 0, 0, 0, 0⟩] 2).getD
      (np_argmax (ehConditionList
        [⟨0, 1, 0, 0, 0, 0, 0, 0⟩, ⟨0, 5, 0, 0, 0, 0, 0, 0⟩] 2)) false
        = true ∧
    geo_integ_resolve (fun _ => 0)
        [⟨0, 1, 0, 0, 0, 0, 0, 0⟩, ⟨0, 5, 0, 0, 0, 0, 0, 0⟩] 2 3 10
      = ⟨0, 5, 0, 0, 0, 0, 0, 0⟩ := by
  have e1 : edgeConditionList (fun _ => 0)
      [⟨0, 1, 0, 0, 0, 0, 0, 0⟩, ⟨0, 5, 0, 0, 0, 0, 0, 0⟩] 3 10
      = [false, true] := by
    norm_num [edgeConditionList, List.map]
  have e2 : ehConditionList
      [⟨0, 1, 0, 0, 0, 0, 0, 0⟩, ⟨0, 5, 0, 0, 0, 0, 0, 0⟩] 2
      = [true, false] := by
    norm_num [ehConditionList, List.map]
  refine ⟨by rw [e1]; rfl, by rw [e2]; rfl, ?_⟩
  have h := geo_integ_disk_priority (fun _ => 0)
    [⟨0, 1, 0, 0, 0, 0, 0, 0⟩, ⟨0, 5, 0, 0, 0, 0, 0, 0⟩] 2 3 10
    (by rw [e1]; rfl) (by rw [e2]; rfl)
  rw [e1] at h
  exact h.trans rfl

/-- C5: if the disk-crossing condition fails at its candidate index but some
sample lies below `horizon_radius + 1e-5`, the resolver returns the all-zero
state, not the capturing sample's coordinates. -/
theorem geo_integ_horizon_capture (cosf : ℚ → ℚ) (sol : List PhaseState)
    (EH in_edge out_edge : ℚ)
    (hedge : (edgeConditionList cosf sol in_edge out_edge).getD
      (np_argmax (edgeConditionList cosf sol in_edge out_edge)) false = false)
    (heh : ∃ s ∈ sol, s.r < EH + 1 / 100000) :
    geo_integ_resolve cosf sol EH in_edge out_edge = zeroState := by
  have htrue : true ∈ ehConditionList sol EH := by
    rcases heh with ⟨s, hs, hr⟩
    have : decide (s.r < EH + 1 / 100000) = true := decide_eq_true hr
    exact this ▸ List.mem_map_of_mem _ hs
  have hgd := getD_np_argmax_of_mem htrue
  unfold geo_integ_resolve
  simp only [hedge, if_false, hgd, if_true, Bool.false_eq_true]

/-- Witness for C5: a one-sample trajectory at radius 1 with horizon radius 2;
the disk condition fails everywhere and the resolver returns zeros. -/
theorem geo_integ_horizon_capture_witness :
    (edgeConditionList (fun _ => 1) [⟨0, 1, 0, 0, 0, 0, 0, 0⟩] 3 10).getD
      (np_argmax (edgeConditionList (fun _ => 1)
        [⟨0, 1, 0, 0, 0, 0, 0, 0⟩] 3 10)) false = false ∧
    geo_integ_resolve (fun _ => 1) [⟨0, 1, 0, 0, 0, 0, 0, 0⟩] 2 3 10
      = zeroState := by
  have e1 : edgeConditionList (fun _ => 1) [⟨0, 1, 0, 0, 0, 0, 0, 0⟩] 3 10
      = [false] := by
    norm_num [edgeConditionList, List.map]
  refine ⟨by rw [e1]; rfl, ?_⟩
  exact geo_integ_horizon_capture (fun _ => 1) [⟨0, 1, 0, 0, 0, 0, 0, 0⟩] 2 3 10
    (by rw [e1]; rfl)
    ⟨⟨0, 1, 0, 0, 0, 0, 0, 0⟩, by simp, by norm_num⟩

/-- C4: when neither condition is ever true along the trajectory, both
first-true scans return the sentinel index 0, the resolver returns the
all-zero state, and sampling `energy_flux` at the terminal radius `r = 0`
gives exactly `0` for any extent with `0 < inner_edge < outer_edge`. -/
theorem geo_integ_escape_default (cosf : ℚ → ℚ) (sol : List PhaseState)
    (EH in_edge out_edge : ℚ)
    (heh : ∀ b ∈ ehConditionList sol EH, b = false)
    (hedge : ∀ b ∈ edgeConditionList cosf sol in_edge out_edge, b = false)
    (hin : 0 < in_edge) (hio : in_edge < out_edge) :
    np_argmax (ehConditionList sol EH) = 0 ∧
    np_argmax (edgeConditionList cosf sol in_edge out_edge) = 0 ∧
    geo_integ_resolve cosf sol EH in_edge out_edge = zeroState ∧
    energy_flux (structure_mk in_edge out_edge)
      (geo_integ_resolve cosf sol EH in_edge out_edge).r = 0 := by
  have hgd_eh := getD_false_of_all_false heh
  have hgd_edge := getD_false_of_all_false hedge
  have hres : geo_integ_resolve cosf sol EH in_edge out_edge = zeroState := by
    unfold geo_integ_resolve
    simp only [hgd_eh, hgd_edge, Bool.false_eq_true, if_false]
  refine ⟨np_argmax_eq_zero_of_all_false heh,
    np_argmax_eq_zero_of_all_false hedge, hres, ?_⟩
  rw [hres]
  show energy_flux (structure_mk in_edge out_edge) 0 = 0
  unfold energy_flux structure_mk
  have : ¬((0 : ℚ) > in_edge ∧ (0 : ℚ) < out_edge) := by
    intro hc
    exact absurd hc.1 (not_lt.mpr hin.le)
  simp only [this, if_false]

/-- Witness for C4: a one-sample trajectory far outside the disk and the
horizon; the terminal state is zero and the flux at its radius is zero. -/
theorem geo_integ_escape_default_witness :
    geo_integ_resolve (fun _ => 1) [⟨0, 100, 0, 0, 0, 0, 0, 0⟩] 2 3 10
      = zeroState ∧
    energy_flux (structure_mk 3 10)
      (geo_integ_resolve (fun _ => 1) [⟨0, 100, 0, 0, 0, 0, 0, 0⟩] 2 3 10).r
      = 0 := by
  have e1 : ehConditionList [⟨0, 100, 0, 0, 0, 0, 0, 0⟩] 2 = [false] := by
    norm_num [ehConditionList, List.map]
  have e2 : edgeConditionList (fun _ => 1) [⟨0, 100, 0, 0, 0, 0, 0, 0⟩] 3 10
      = [false] := by
    norm_num [edgeConditionList, List.map]
  have h := geo_integ_escape_default (fun _ => 1)
    [⟨0, 100, 0, 0, 0, 0, 0, 0⟩] 2 3 10
    (by rw [e1]; simp) (by rw [e2]; simp) (by norm_num) (by norm_num)
  exact ⟨h.2.2.1, h.2.2.2⟩

/-! ### Claims about `initCond`, the disk profile and the `Photon` object -/

/-- C6: `initCond` keeps the four coordinates of `x` unchanged and lowers
the momentum exactly as `k_t = g_tt*k^t + g_tph*k^phi`, `k_r = g_rr*k^r`,
`k_th = g_thth*k^theta`, `k_ph = g_phph*k^phi + g_tph*k^t`, using only the
five scalars that `metric(x)` returns. -/
theorem initCond_lowering (x k : Vec4) (metric : Vec4 → Metric5) :
    (initCond x k metric).t = x.c0 ∧
    (initCond x k metric).r = x.c1 ∧
    (initCond x k metric).th = x.c2 ∧
    (initCond x k metric).ph = x.c3 ∧
    (initCond x k metric).k_t
      = (metric x).g_tt * k.c0 + (metric x).g_tph * k.c3 ∧
    (initCond x k metric).k_r = (metric x).g_rr * k.c1 ∧
    (initCond x k metric).k_th = (metric x).g_thth * k.c2 ∧
    (initCond x k metric).k_ph
      = (metric x).g_phph * k.c3 + (metric x).g_tph * k.c0 :=
  ⟨rfl, rfl, rfl, rfl, rfl, rfl, rfl, rfl⟩

/-- C7: `energy_flux` is exactly `0` at `r = in_edge`, at `r = out_edge`,
and at every `r` outside the open interval `(in_edge, out_edge)`. -/
theorem energy_flux_zero_outside (a : AccStructure) (r : ℚ)
    (h : ¬(a.in_edge < r ∧ r < a.out_edge)) :
    energy_flux a r = 0 ∧
    energy_flux a a.in_edge = 0 ∧
    energy_flux a a.out_edge = 0 := by
  refine ⟨?_, ?_, ?_⟩
  · unfold energy_flux
    simp only [gt_iff_lt, h, if_false]
  · unfold energy_flux
    have hc : ¬(a.in_edge > a.in_edge ∧ a.in_edge < a.out_edge) := by
      intro hc
      exact lt_irrefl _ hc.1
    simp only [hc, if_false]
  · unfold energy_flux
    have hc : ¬(a.out_edge > a.in_edge ∧ a.out_edge < a.out_edge) := by
      intro hc
      exact lt_irrefl _ hc.2
    simp only [hc, if_false]

/-- Witness for C7: outside the extent `(3, 10)`, at `r = 11`, the flux is
zero, as it is at the edges themselves. -/
theorem energy_flux_zero_outside_witness :
    ¬((structure_mk 3 10).in_edge < 11 ∧ (11 : ℚ) < (structure_mk 3 10).out_edge) ∧
    energy_flux (structure_mk 3 10) 11 = 0 ∧
    energy_flux (structure_mk 3 10) 3 = 0 ∧
    energy_flux (structure_mk 3 10) 10 = 0 := by
  have h : ¬((structure_mk 3 10).in_edge < 11 ∧
      (11 : ℚ) < (structure_mk 3 10).out_edge) := by
    norm_num [structure_mk]
  have hmain := energy_flux_zero_outside (structure_mk 3 10) 11 h
  exact ⟨h, hmain.1, hmain.2.1, hmain.2.2⟩

/-- C8 (showing the code side): the `structure` constructor of
`simple_disk.py` performs no validation at all — with `R_min = R_max = 5`
(a malformed extent, `inner_edge ≥ outer_edge`) construction succeeds and
stores both radii, and the denominator `in_edge - out_edge` of the slope
`m` computed inside `energy_flux` is `0`: nothing fails fast before
tracing. -/
theorem structure_mk_no_validation :
    (structure_mk 5 5).in_edge = 5 ∧
    (structure_mk 5 5).out_edge = 5 ∧
    (structure_mk 5 5).in_edge ≥ (structure_mk 5 5).out_edge ∧
    (structure_mk 5 5).in_edge - (structure_mk 5 5).out_edge = 0 := by
  refine ⟨rfl, rfl, le_refl _, ?_⟩
  norm_num [structure_mk]

/-- C9 counterexample: right after `Photon.__init__`, the terminal state
`fP` is Python `None`, not the all-zero PhaseState the claim asserts. -/
theorem photon_mk0_fP_is_none :
    (Photon.mk0 0 0 1).fP = none ∧ (Photon.mk0 0 0 1).fP ≠ some zeroState :=
  ⟨rfl, by simp [Photon.mk0]⟩

/-- C9 (amended): at `Photon` construction `fP` is `None`; the all-zero
default is assigned inside `geo_integ` (line 83) before the condition
checks, so a photon whose trajectory crosses neither the disk nor the
horizon ends with the all-zero terminal state assigned in the resolver,
not one set at construction. -/
theorem photon_terminal_zero_assigned_in_resolver
    (alpha beta freq : ℚ) (cosf : ℚ → ℚ) (sol : List PhaseState)
    (EH in_edge out_edge : ℚ)
    (heh : ∀ b ∈ ehConditionList sol EH, b = false)
    (hedge : ∀ b ∈ edgeConditionList cosf sol in_edge out_edge, b = false) :
    (Photon.mk0 alpha beta freq).fP = none ∧
    (geo_integ_photon cosf (Photon.mk0 alpha beta freq) sol
        EH in_edge out_edge).fP = some zeroState := by
  refine ⟨rfl, ?_⟩
  have hgd_eh := getD_false_of_all_false heh
  have hgd_edge := getD_false_of_all_false hedge
  unfold geo_integ_photon geo_integ_resolve
  simp only [hgd_eh, hgd_edge, Bool.false_eq_true, if_false]

/-- Witness for C9 (amended): the concrete escaping photon of the C4
witness, starting from a freshly constructed `Photon`. -/
theorem photon_terminal_zero_assigned_in_resolver_witness :
    (Photon.mk0 1 2 1).fP = none ∧
    (geo_integ_photon (fun _ => 1) (Photon.mk0 1 2 1)
        [⟨0, 100, 0, 0, 0, 0, 0, 0⟩] 2 3 10).fP = some zeroState := by
  have e1 : ehConditionList [⟨0, 100, 0, 0, 0, 0, 0, 0⟩] 2 = [false] := by
    norm_num [ehConditionList, List.map]
  have e2 : edgeConditionList (fun _ => 1) [⟨0, 100, 0, 0, 0, 0, 0, 0⟩] 3 10
      = [false] := by
    norm_num [edgeConditionList, List.map]
  exact photon_terminal_zero_assigned_in_resolver 1 2 1 (fun _ => 1)
    [⟨0, 100, 0, 0, 0, 0, 0, 0⟩] 2 3 10
    (by rw [e1]; simp) (by rw [e2]; simp)

/-- C10: for `in_edge < out_edge`, `energy_flux` equals
`(r - out_edge)/(in_edge - out_edge)` — strictly between `0` and `1` — when
`in_edge < r < out_edge`, and `0` otherwise, so it always lies in `[0, 1)`;
consequently every pixel of an image filled through `create_image` with
per-pixel fluxes of this disk lies in `[0, 1)`. -/
theorem energy_flux_range (in_edge out_edge : ℚ) (h : in_edge < out_edge) :
    (∀ r, in_edge < r → r < out_edge →
      energy_flux (structure_mk in_edge out_edge) r
        = (r - out_edge) / (in_edge - out_edge) ∧
      0 < energy_flux (structure_mk in_edge out_edge) r) ∧
    (∀ r, ¬(in_edge < r ∧ r < out_edge) →
      energy_flux (structure_mk in_edge out_edge) r = 0) ∧
    (∀ r, 0 ≤ energy_flux (structure_mk in_edge out_edge) r ∧
      energy_flux (structure_mk in_edge out_edge) r < 1) ∧
    (∀ (pixels : List (ℕ × ℕ)) (cosf : ℚ → ℚ)
      (traj : ℕ × ℕ → List PhaseState) (EH : ℚ) (px : ℕ × ℕ),
      0 ≤ create_image pixels
          (pixel_flux cosf traj EH (structure_mk in_edge out_edge)) px ∧
      create_image pixels
          (pixel_flux cosf traj EH (structure_mk in_edge out_edge)) px < 1) := by
  have hformula : ∀ r, in_edge < r → r < out_edge →
      energy_flux (structure_mk in_edge out_edge) r
        = (r - out_edge) / (in_edge - out_edge) := by
    intro r h1 h2
    unfold energy_flux structure_mk
    simp only [gt_iff_lt, h1, h2, and_self, if_true]
    rw [show ((1 : ℚ) - 0) = 1 by norm_num, div_mul_eq_mul_div, one_mul]
  have hpos : ∀ r, in_edge < r → r < out_edge →
      0 < energy_flux (structure_mk in_edge out_edge) r := by
    intro r h1 h2
    rw [hformula r h1 h2]
    exact div_pos_of_neg_of_neg (by linarith) (by linarith)
  have hzero : ∀ r, ¬(in_edge < r ∧ r < out_edge) →
      energy_flux (structure_mk in_edge out_edge) r = 0 := by
    intro r hr
    unfold energy_flux structure_mk
    simp only [gt_iff_lt, hr, if_false]
  have hbound : ∀ r, 0 ≤ energy_flux (structure_mk in_edge out_edge) r ∧
      energy_flux (structure_mk in_edge out_edge) r < 1 := by
    intro r
    by_cases hr : in_edge < r ∧ r < out_edge
    · refine ⟨(hpos r hr.1 hr.2).le, ?_⟩
      rw [hformula r hr.1 hr.2]
      exact (div_lt_one_of_neg (by linarith)).mpr (by linarith)
    · rw [hzero r hr]
      norm_num
  refine ⟨fun r h1 h2 => ⟨hformula r h1 h2, hpos r h1 h2⟩, hzero, hbound, ?_⟩
  intro pixels cosf traj EH px
  rw [create_image_value]
  by_cases hpx : px ∈ pixels
  · simp only [hpx, if_true]
    exact hbound _
  · simp only [hpx, if_false]
    norm_num

/-- Witness for C10: for the extent `(3, 10)` the flux at `r = 5` is
`(5-10)/(3-10) = 5/7`, strictly between `0` and `1`. -/
theorem energy_flux_range_witness :
    (3 : ℚ) < 10 ∧
    energy_flux (structure_mk 3 10) 5 = ((5 : ℚ) - 10) / ((3 : ℚ) - 10) ∧
    0 < energy_flux (structure_mk 3 10) 5 ∧
    energy_flux (structure_mk 3 10) 5 < 1 := by
  have h := energy_flux_range 3 10 (by norm_num)
  have h5 := h.1 5 (by norm_num) (by norm_num)
  exact ⟨by norm_num, h5.1, h5.2, (h.2.2.1 5).2⟩

/-! ### Helper lemmas about `distribute_idx` -/

lemma distribute_idx_size (rank size total : ℕ) :
    (distribute_idx rank size total).2
      = (distribute_idx rank size total).1
        + (if rank < total % size then total / size + 1 else total / size) := by
  simp only [distribute_idx]
  split_ifs with h
  · simp [add_assoc]
  · simp

lemma distribute_idx_contiguous (rank size total : ℕ) :
    (distribute_idx rank size total).2
      = (distribute_idx (rank + 1) size total).1 := by
  simp only [distribute_idx]
  split_ifs with h1 h2 h2
  · ring
  · have hrest : total % size = rank + 1 := by omega
    rw [hrest]
    ring
  · omega
  · ring

lemma distribute_idx_fst_zero (size total : ℕ) :
    (distribute_idx 0 size total).1 = 0 := by
  simp only [distribute_idx]
  split_ifs with h
  · ring
  · omega

lemma distribute_idx_fst_size (size total : ℕ) (hsize : 1 ≤ size) :
    (distribute_idx size size total).1 = total := by
  simp only [distribute_idx]
  have hrest : total % size < size := Nat.mod_lt _ hsize
  split_ifs with h
  · omega
  · exact Nat.div_add_mod total size

lemma distribute_idx_fst_mono (size total : ℕ) :
    Monotone fun rank => (distribute_idx rank size total).1 := by
  refine monotone_nat_of_le_succ fun rank => ?_
  rw [← distribute_idx_contiguous]
  rw [distribute_idx_size]
  exact Nat.le_add_right _ _

lemma exists_unique_rank (f : ℕ → ℕ) (hmono : Monotone f) (W i : ℕ)
    (hi0 : f 0 ≤ i) (hiW : i < f W) :
    ∃! r, r < W ∧ f r ≤ i ∧ i < f (r + 1) := by
  have hex : ∃ r, r < W ∧ f r ≤ i ∧ i < f (r + 1) := by
    induction W with
    | zero => exact absurd hiW (not_lt.mpr hi0)
    | succ W ih =>
        by_cases hW : i < f W
        · obtain ⟨r, hr, h1, h2⟩ := ih hW
          exact ⟨r, Nat.lt_succ_of_lt hr, h1, h2⟩
        · exact ⟨W, Nat.lt_succ_self W, not_lt.mp hW, hiW⟩
  obtain ⟨r, hr⟩ := hex
  refine ⟨r, hr, fun r' hr' => ?_⟩
  rcases lt_trichotomy r' r with hlt | heq | hgt
  · have : f (r' + 1) ≤ f r := hmono hlt
    omega
  · exact heq
  · have : f (r + 1) ≤ f r' := hmono hgt
    omega

/-- C2: for any grid `xpix × ypix` and any worker count `W ≥ 1`, writing
`total = xpix * ypix`, `base = total / W` and `rem = total % W`:
each rank `r < rem` receives exactly `base + 1` linear indices and every
other rank exactly `base`; the ranges are contiguous (each ends where the
next starts), start at `0`, and end at `total`; every linear index below
`total` belongs to exactly one rank's range; and the sizes sum to
`total = xpix * ypix` (ranks with nothing to do get `start = end`). -/
theorem distribute_partition (xpix ypix W : ℕ) (hW : 1 ≤ W) :
    (∀ r, r < (xpix * ypix) % W →
      (distribute_idx r W (xpix * ypix)).2
        = (distribute_idx r W (xpix * ypix)).1 + ((xpix * ypix) / W + 1)) ∧
    (∀ r, (xpix * ypix) % W ≤ r →
      (distribute_idx r W (xpix * ypix)).2
        = (distribute_idx r W (xpix * ypix)).1 + (xpix * ypix) / W) ∧
    (distribute_idx 0 W (xpix * ypix)).1 = 0 ∧
    (∀ r, (distribute_idx r W (xpix * ypix)).2
        = (distribute_idx (r + 1) W (xpix * ypix)).1) ∧
    (distribute_idx (W - 1) W (xpix * ypix)).2 = xpix * ypix ∧
    (∀ i, i < xpix * ypix → ∃! r, r < W ∧
      (distribute_idx r W (xpix * ypix)).1 ≤ i ∧
      i < (distribute_idx r W (xpix * ypix)).2) ∧
    (∑ r in Finset.range W,
      ((distribute_idx r W (xpix * ypix)).2
        - (distribute_idx r W (xpix * ypix)).1)) = xpix * ypix := by
  set total := xpix * ypix with htotal
  have hsize : ∀ r, (distribute_idx r W total).2
      = (distribute_idx r W total).1
        + (if r < total % W then total / W + 1 else total / W) :=
    fun r => distribute_idx_size r W total
  have hcont : ∀ r, (distribute_idx r W total).2
      = (distribute_idx (r + 1) W total).1 :=
    fun r => distribute_idx_contiguous r W total
  have hmono := distribute_idx_fst_mono W total
  have hlast : (distribute_idx (W - 1) W total).2 = total := by
    rw [hcont, show W - 1 + 1 = W by omega, distribute_idx_fst_size W total hW]
  refine ⟨fun r hr => by rw [hsize r, if_pos hr],
          fun r hr => by rw [hsize r, if_neg (not_lt.mpr hr)],
          distribute_idx_fst_zero W total, hcont, hlast, ?_, ?_⟩
  · intro i hi
    have h0 : (distribute_idx 0 W total).1 ≤ i := by
      rw [distribute_idx_fst_zero]
      exact Nat.zero_le i
    have hWi : i < (distribute_idx W W total).1 := by
      rw [distribute_idx_fst_size W total hW]
      exact hi
    obtain ⟨r, ⟨hr, h1, h2⟩, huniq⟩ :=
      exists_unique_rank (fun rank => (distribute_idx rank W total).1)
        hmono W i h0 hWi
    refine ⟨r, ⟨hr, h1, by rw [hcont r]; exact h2⟩, fun r' hr' => ?_⟩
    exact huniq r' ⟨hr'.1, hr'.2.1, by rw [← hcont r']; exact hr'.2.2⟩
  · have hcongr : ∀ r ∈ Finset.range W,
        (distribute_idx r W total).2 - (distribute_idx r W total).1
          = (distribute_idx (r + 1) W total).1
            - (distribute_idx r W total).1 := by
      intro r _
      rw [← hcont r]
    rw [Finset.sum_congr rfl hcongr]
    have hend : (distribute_idx W W total).1 - (distribute_idx 0 W total).1
        = total := by
      rw [distribute_idx_fst_size W total hW, distribute_idx_fst_zero]
      omega
    exact (Finset.sum_range_tsub hmono W).trans hend

/-- Witness for C2: the `3 × 2` grid split across `4` workers; rank `1`
(below the remainder `2`) gets the two indices `[2, 4)`. -/
theorem distribute_partition_witness :
    1 ≤ 4 ∧ distribute_idx 1 4 (3 * 2) = (2, 4) ∧
    (distribute_idx 0 4 (3 * 2)).1 = 0 ∧
    (distribute_idx 3 4 (3 * 2)).2 = 3 * 2 := by
  have h := distribute_partition 3 2 4 (by norm_num)
  refine ⟨by norm_num, by decide, h.2.2.1, h.2.2.2.2.1⟩

/-! ### Helper lemmas about the pixel enumeration and the reduction -/

lemma mem_photon_pixels_iff (sa sb ea eb ylen i j : ℕ) :
    (i, j) ∈ photon_pixels sa sb ea eb ylen ↔
      (sa ≤ i ∧ i ≤ ea ∧ (if i = sa then sb else 0) ≤ j ∧
        j < (if i = ea then eb else ylen)) := by
  unfold photon_pixels
  simp only [List.mem_flatMap, List.mem_map, List.mem_range]
  constructor
  · rintro ⟨di, hdi, dj, hdj, heq⟩
    rw [Prod.mk.injEq] at heq
    obtain ⟨hi, hj⟩ := heq
    subst hi
    subst hj
    split_ifs at hdj ⊢ <;> omega
  · rintro ⟨h1, h2, h3, h4⟩
    refine ⟨i - sa, by omega, ?_⟩
    have hisa : sa + (i - sa) = i := by omega
    rw [hisa]
    refine ⟨j - (if i = sa then sb else 0), ?_, ?_⟩
    · split_ifs at h3 h4 ⊢ <;> omega
    · rw [Prod.mk.injEq]
      refine ⟨rfl, ?_⟩
      split_ifs at h3 ⊢ <;> omega

lemma mem_photon_pixels_divmod (s e ylen i j : ℕ) (hy : 0 < ylen)
    (hse : s ≤ e) :
    (i, j) ∈ photon_pixels (s / ylen) (s % ylen) (e / ylen) (e % ylen) ylen ↔
      (j < ylen ∧ s ≤ i * ylen + j ∧ i * ylen + j < e) := by
  rw [mem_photon_pixels_iff]
  have hs : ylen * (s / ylen) + s % ylen = s := Nat.div_add_mod s ylen
  have he : ylen * (e / ylen) + e % ylen = e := Nat.div_add_mod e ylen
  have hsb : s % ylen < ylen := Nat.mod_lt _ hy
  have heb : e % ylen < ylen := Nat.mod_lt _ hy
  rw [Nat.mul_comm ylen (s / ylen)] at hs
  rw [Nat.mul_comm ylen (e / ylen)] at he
  constructor
  · rintro ⟨h1, h2, h3, h4⟩
    by_cases hisa : i = s / ylen <;> by_cases hiea : i = e / ylen
    · rw [if_pos hisa] at h3
      rw [if_pos hiea] at h4
      subst hisa
      rw [← hiea] at he
      omega
    · rw [if_pos hisa] at h3
      rw [if_neg hiea] at h4
      subst hisa
      have hm : (s / ylen + 1) * ylen ≤ (e / ylen) * ylen :=
        mul_le_mul_right' (by omega) ylen
      rw [Nat.succ_mul] at hm
      omega
    · rw [if_neg hisa] at h3
      rw [if_pos hiea] at h4
      subst hiea
      have hm : (s / ylen + 1) * ylen ≤ (e / ylen) * ylen :=
        mul_le_mul_right' (by omega) ylen
      rw [Nat.succ_mul] at hm
      omega
    · rw [if_neg hisa] at h3
      rw [if_neg hiea] at h4
      have hm1 : (s / ylen + 1) * ylen ≤ i * ylen :=
        mul_le_mul_right' (by omega) ylen
      have hm2 : (i + 1) * ylen ≤ (e / ylen) * ylen :=
        mul_le_mul_right' (by omega) ylen
      rw [Nat.succ_mul] at hm1 hm2
      omega
  · rintro ⟨hj, hlo, hhi⟩
    have h1 : s / ylen ≤ i := by
      by_contra hc
      push_neg at hc
      have hm : (i + 1) * ylen ≤ (s / ylen) * ylen :=
        mul_le_mul_right' (by omega) ylen
      rw [Nat.succ_mul] at hm
      omega
    have h2 : i ≤ e / ylen := by
      by_contra hc
      push_neg at hc
      have hm : (e / ylen + 1) * ylen ≤ i * ylen :=
        mul_le_mul_right' (by omega) ylen
      rw [Nat.succ_mul] at hm
      omega
    refine ⟨h1, h2, ?_, ?_⟩
    · split_ifs with hisa
      · subst hisa
        omega
      · omega
    · split_ifs with hiea
      · subst hiea
        omega
      · exact hj

lemma distribute_idx_le (rank size total : ℕ) :
    (distribute_idx rank size total).1 ≤ (distribute_idx rank size total).2 := by
  rw [distribute_idx_size]
  omega

lemma mem_worker_pixels_iff (rank size xpix ypix i j : ℕ) (hy : 0 < ypix) :
    (i, j) ∈ worker_pixels rank size xpix ypix ↔
      (j < ypix ∧
        (distribute_idx rank size (xpix * ypix)).1 ≤ i * ypix + j ∧
        i * ypix + j < (distribute_idx rank size (xpix * ypix)).2) := by
  have hrw : worker_pixels rank size xpix ypix
      = photon_pixels
          ((distribute_idx rank size (xpix * ypix)).1 / ypix)
          ((distribute_idx rank size (xpix * ypix)).1 % ypix)
          ((distribute_idx rank size (xpix * ypix)).2 / ypix)
          ((distribute_idx rank size (xpix * ypix)).2 % ypix) ypix := rfl
  rw [hrw]
  exact mem_photon_pixels_divmod _ _ ypix i j hy
    (distribute_idx_le rank size (xpix * ypix))

lemma distribute_idx_full (total : ℕ) : distribute_idx 0 1 total = (0, total) := by
  simp [distribute_idx, Nat.mod_one, Nat.div_one]

lemma distribute_idx_snd_le_total (rank size total : ℕ) (hsize : 1 ≤ size)
    (hrank : rank < size) :
    (distribute_idx rank size total).2 ≤ total := by
  rw [distribute_idx_contiguous]
  have hmono := distribute_idx_fst_mono size total
  calc (distribute_idx (rank + 1) size total).1
      ≤ (distribute_idx size size total).1 := hmono (by omega)
    _ = total := distribute_idx_fst_size size total hsize

lemma list_range_map_sum (g : ℕ → ℚ) (n : ℕ) :
    ((List.range n).map g).sum = ∑ r in Finset.range n, g r := by
  induction n with
  | zero => simp
  | succ n ih =>
      rw [List.range_succ, Finset.sum_range_succ, List.map_append,
        List.sum_append, ih]
      simp

lemma worker_pixels_ypix_zero (rank size xpix : ℕ) :
    worker_pixels rank size xpix 0 = [] := by
  have h0 : distribute_idx rank size (xpix * 0) = (0, 0) := by
    simp [distribute_idx]
  have hrw : worker_pixels rank size xpix 0
      = photon_pixels
          ((distribute_idx rank size (xpix * 0)).1 / 0)
          ((distribute_idx rank size (xpix * 0)).1 % 0)
          ((distribute_idx rank size (xpix * 0)).2 / 0)
          ((distribute_idx rank size (xpix * 0)).2 % 0) 0 := rfl
  rw [hrw, h0]
  simp [photon_pixels, List.range_succ]

lemma gather_sum_eq_single_worker (f : ℕ × ℕ → ℚ) (xpix ypix W : ℕ)
    (hW : 1 ≤ W) (px : ℕ × ℕ) :
    gather_sum ((List.range W).map fun rank =>
        worker_buffer f rank W xpix ypix) px
      = worker_buffer f 0 1 xpix ypix px := by
  obtain ⟨i, j⟩ := px
  have hbuf : ∀ rank size, worker_buffer f rank size xpix ypix (i, j)
      = if (i, j) ∈ worker_pixels rank size xpix ypix then f (i, j) else 0 := by
    intro rank size
    unfold worker_buffer
    exact create_image_value _ _ _
  unfold gather_sum
  rw [List.map_map, list_range_map_sum]
  simp only [Function.comp_apply]
  by_cases hy : 0 < ypix
  · have hterm : ∀ rank, worker_buffer f rank W xpix ypix (i, j)
        = if (j < ypix ∧
            (distribute_idx rank W (xpix * ypix)).1 ≤ i * ypix + j ∧
            i * ypix + j < (distribute_idx rank W (xpix * ypix)).2)
          then f (i, j) else 0 := by
      intro rank
      rw [hbuf rank W]
      by_cases hm : (i, j) ∈ worker_pixels rank W xpix ypix
      · rw [if_pos hm,
          if_pos ((mem_worker_pixels_iff rank W xpix ypix i j hy).mp hm)]
      · rw [if_neg hm, if_neg
          (fun hc => hm ((mem_worker_pixels_iff rank W xpix ypix i j hy).mpr hc))]
    have hfull : worker_buffer f 0 1 xpix ypix (i, j)
        = if (j < ypix ∧ i * ypix + j < xpix * ypix) then f (i, j) else 0 := by
      have h01 := mem_worker_pixels_iff 0 1 xpix ypix i j hy
      rw [distribute_idx_full] at h01
      simp only [Nat.zero_le, true_and] at h01
      rw [hbuf 0 1]
      by_cases hm : (i, j) ∈ worker_pixels 0 1 xpix ypix
      · rw [if_pos hm, if_pos (h01.mp hm)]
      · rw [if_neg hm, if_neg (fun hc => hm (h01.mpr hc))]
    rw [Finset.sum_congr rfl fun r _ => hterm r, hfull]
    by_cases hcase : j < ypix ∧ i * ypix + j < xpix * ypix
    · have hex := exists_unique_rank
        (fun rank => (distribute_idx rank W (xpix * ypix)).1)
        (distribute_idx_fst_mono W (xpix * ypix)) W (i * ypix + j)
        (by
          show (distribute_idx 0 W (xpix * ypix)).1 ≤ i * ypix + j
          rw [distribute_idx_fst_zero]
          exact Nat.zero_le _)
        (by
          show i * ypix + j < (distribute_idx W W (xpix * ypix)).1
          rw [distribute_idx_fst_size W (xpix * ypix) hW]
          exact hcase.2)
      obtain ⟨r0, ⟨hr0W, hr0lo, hr0hi⟩, huniq⟩ := hex
      rw [Finset.sum_eq_single r0]
      · rw [if_pos ⟨hcase.1, hr0lo, by
          rw [distribute_idx_contiguous]; exact hr0hi⟩, if_pos hcase]
      · intro b hb hbne
        rw [if_neg]
        rintro ⟨hjy, hlo, hhi⟩
        refine hbne (huniq b ⟨Finset.mem_range.mp hb, hlo, ?_⟩)
        show i * ypix + j < (distribute_idx (b + 1) W (xpix * ypix)).1
        rw [← distribute_idx_contiguous]
        exact hhi
      · intro hr0
        exact absurd (Finset.mem_range.mpr hr0W) hr0
    · rw [if_neg hcase]
      apply Finset.sum_eq_zero
      intro r hr
      rw [if_neg]
      rintro ⟨hjy, hlo, hhi⟩
      exact hcase ⟨hjy, lt_of_lt_of_le hhi
        (distribute_idx_snd_le_total r W (xpix * ypix) hW
          (Finset.mem_range.mp hr))⟩
  · have hy0 : ypix = 0 := by omega
    subst hy0
    have hterm0 : ∀ rank size, worker_buffer f rank size xpix 0 (i, j) = 0 := by
      intro rank size
      rw [hbuf rank size, worker_pixels_ypix_zero]
      simp
    rw [hterm0 0 1]
    rw [Finset.sum_congr rfl fun r _ => hterm0 r W]
    exact Finset.sum_const_zero

/-- C3: summing the per-worker buffers elementwise (each worker filling,
through `create_image`, exactly the pixels of the range `distribute`
assigns to it, with the per-pixel flux of the resolved trajectory, and
leaving every other pixel zero) recovers, at every pixel, the image a
single worker assembling the full grid produces: the reduced image is
independent of the worker count `W ≥ 1`. -/
theorem gather_equals_single_worker (cosf : ℚ → ℚ)
    (traj : ℕ × ℕ → List PhaseState) (EH : ℚ) (a : AccStructure)
    (xpix ypix W : ℕ) (hW : 1 ≤ W) (px : ℕ × ℕ) :
    gather_sum ((List.range W).map fun rank =>
        worker_buffer (pixel_flux cosf traj EH a) rank W xpix ypix) px
      = worker_buffer (pixel_flux cosf traj EH a) 0 1 xpix ypix px :=
  gather_sum_eq_single_worker (pixel_flux cosf traj EH a) xpix ypix W hW px

/-- Witness for C3: the `3 × 2` grid over `4` workers (rank `1` owning the
pixels `(1,0)` and `(1,1)`), reduced at pixel `(1,1)`, equals the
single-worker image there. -/
theorem gather_equals_single_worker_witness :
    1 ≤ 4 ∧
    worker_pixels 1 4 3 2 = [(1, 0), (1, 1)] ∧
    gather_sum ((List.range 4).map fun rank =>
        worker_buffer (pixel_flux (fun _ => 0)
          (fun _ => [⟨0, 5, 0, 0, 0, 0, 0, 0⟩]) 2 (structure_mk 3 10))
          rank 4 3 2) (1, 1)
      = worker_buffer (pixel_flux (fun _ => 0)
          (fun _ => [⟨0, 5, 0, 0, 0, 0, 0, 0⟩]) 2 (structure_mk 3 10))
          0 1 3 2 (1, 1) :=
  ⟨by norm_num, by decide,
    gather_equals_single_worker (fun _ => 0)
      (fun _ => [⟨0, 5, 0, 0, 0, 0, 0, 0⟩]) 2 (structure_mk 3 10)
      3 2 4 (by norm_num) (1, 1)⟩
